import Mathlib

/-!
Verification development for the fadtk Frechet Audio Distance core
(`fadtk/fad.py`).

Numeric model: machine floats are idealised as exact rationals (ℚ); the
spec's "within floating tolerance" becomes exact equality over ℚ.
External numerical collaborators (scipy's `linalg.sqrtm`, numpy's random
choice, `np.polyfit`) are modelled as explicit oracle parameters or by
their documented closed forms.  The filesystem is modelled as a pure
function from paths to contents.
-/

/-- Row vector of feature dimension `d` (one time frame of an embedding). -/
abbrev Vec (d : ℕ) : Type := Fin d → ℚ

/-- A `d × d` matrix of rationals. -/
abbrev Mat (d : ℕ) : Type := Fin d → Fin d → ℚ

/-- `np.dot` of two vectors. -/
def vecDot {d : ℕ} (v w : Vec d) : ℚ := ∑ j, v j * w j

/-- `np.trace`. -/
def matTrace {d : ℕ} (A : Mat d) : ℚ := ∑ i, A i i

/-- `A.dot(B)` matrix product. -/
def matMul {d : ℕ} (A B : Mat d) : Mat d := fun i k => ∑ j, A i j * B j k

/-- `A + np.eye(d) * eps`. -/
def addEps {d : ℕ} (A : Mat d) (eps : ℚ) : Mat d :=
  fun i j => A i j + (if i = j then eps else 0)

/-- An embedding array: a list of rows (time frames), each a `Vec d`
(`EmbeddingArray` in the spec, a 2-D numpy array in the code). -/
abbrev EmbArray (d : ℕ) : Type := List (Vec d)

/-- `calc_embd_statistics` from `fad.py`:
`np.mean(embd_lst, axis=0)` (per-column mean over rows) and
`np.cov(embd_lst, rowvar=False)` (sample covariance, `n - 1`
normalisation).  Entry-wise, `np.cov` computes
`cov a b = (Σ_r (r a − mean a) * (r b − mean b)) / (n − 1)`.
Over ℚ a division by zero yields 0 (numpy would emit NaN for `n = 1`). -/
def calc_embd_statistics {d : ℕ} (embd_lst : EmbArray d) : Vec d × Mat d :=
  let n : ℚ := embd_lst.length
  let mu : Vec d := fun j => (embd_lst.map (fun r => r j)).sum / n
  (mu, fun a b => (embd_lst.map (fun r => (r a - mu a) * (r b - mu b))).sum / (n - 1))

/-- Modelled from the spec: `calculate_embd_statistics_online` is defined in
the repository's `fadtk/utils.py`, which is not present under `src/`; only
its call site in `load_stats` (`fad.py`) is.  Per spec §4.2
(`onlineStatistics`): accumulate the total frame count `N`, a running sum of
rows and a running sum of outer products (row ⊗ row) across files, then
derive `mu = sum / N` and `cov = (sumOuter − N·mu⊗mu) / (N − 1)`. -/
def calculate_embd_statistics_online {d : ℕ} (files : List (EmbArray d)) :
    Vec d × Mat d :=
  let N : ℚ := ((files.map List.length).sum : ℕ)
  let sumv : Vec d := fun j => (files.map (fun f => (f.map (fun r => r j)).sum)).sum
  let sumOuter : Mat d :=
    fun a b => (files.map (fun f => (f.map (fun r => r a * r b)).sum)).sum
  let mu : Vec d := fun j => sumv j / N
  (mu, fun a b => (sumOuter a b - N * (mu a * mu b)) / (N - 1))

/-! ### Frechet distance (`calc_frechet_distance`)

`scipy.linalg.sqrtm` is an external numerical routine; it is modelled as an
oracle returning the entries of its result (real and imaginary parts)
together with the two observations the code makes about the result object:
`np.iscomplexobj(covmean)` (complex dtype) and `np.isfinite(covmean).all()`.
-/

/-- Result object of a `linalg.sqrtm` call, as observed by the code. -/
structure SqrtmResult (d : ℕ) where
  re : Mat d
  im : Mat d
  isComplexObj : Bool
  allFinite : Bool

/-- The `linalg.sqrtm` collaborator: real input matrix to result object. -/
abbrev SqrtmOracle (d : ℕ) : Type := Mat d → SqrtmResult d

/-- The error raised by `calc_frechet_distance`: the
`ValueError('Imaginary component …')` of `fad.py` (spec:
`NumericalInstability`).  The message payload (max abs imaginary entry) is
not modelled. -/
inductive FadError where
  | numericalInstability
deriving DecidableEq

/-- Default `eps` of `calc_frechet_distance` (`1e-6`). -/
def fadEps : ℚ := 1 / 1000000

/-- The `atol` of the `np.allclose` diagonal-imaginary check (`1e-3`);
`np.allclose(x, 0, atol=1e-3)` is `∀ i, |x i| ≤ 1e-3` (rtol scales the zero
target, contributing nothing). -/
def atolImag : ℚ := 1 / 1000

/-- Lines 62–69 of `fad.py`: take `sqrtm(cov1.dot(cov2))`; if the result has
a non-finite entry, retry with `(cov1 + eps·I).dot(cov2 + eps·I)`. -/
def covmeanResolved {d : ℕ} (S : SqrtmOracle d) (cov1 cov2 : Mat d) (eps : ℚ) :
    SqrtmResult d :=
  let c0 := S (matMul cov1 cov2)
  if c0.allFinite then c0 else S (matMul (addEps cov1 eps) (addEps cov2 eps))

/-- Lines 71–76 of `fad.py`: if the resolved `covmean` is a complex object,
fail when some diagonal imaginary part exceeds `1e-3` in magnitude,
otherwise keep only the real part. -/
def postCovmean {d : ℕ} (r : SqrtmResult d) : Except FadError (Mat d) :=
  if r.isComplexObj then
    if ∀ i, |r.im i i| ≤ atolImag then .ok r.re
    else .error .numericalInstability
  else .ok r.re

/-- `calc_frechet_distance` from `fad.py`.  The shape assertions of lines
55–58 are enforced by the shared dimension index `d`.  The result is
`diff.dot(diff) + tr cov1 + tr cov2 − 2·tr covmean`. -/
def calc_frechet_distance {d : ℕ} (S : SqrtmOracle d) (mu1 : Vec d)
    (cov1 : Mat d) (mu2 : Vec d) (cov2 : Mat d) (eps : ℚ) :
    Except FadError ℚ :=
  let diff : Vec d := fun j => mu1 j - mu2 j
  match postCovmean (covmeanResolved S cov1 cov2 eps) with
  | .error e => .error e
  | .ok covmean =>
      .ok (vecDot diff diff + matTrace cov1 + matTrace cov2
            - 2 * matTrace covmean)

/-! ### File paths and the embedding cache -/

/-- A filesystem path: directory components, file stem, and extension
(`Path` in the code; `p.name = p.stem ++ p.ext`). -/
structure FPath where
  dir : List String
  stem : String
  ext : String
deriving DecidableEq

/-- `get_cache_embedding_path`: `audio.parent / "embeddings" / model /
audio.with_suffix(".npy").name`. -/
def get_cache_embedding_path (model : String) (p : FPath) : FPath :=
  ⟨p.dir ++ ["embeddings", model], p.stem, ".npy"⟩

/-- `read_embedding_file`: load the cached embedding for an audio file
(`np.load` of the cache path).  `fs` is the filesystem oracle. -/
def read_embedding_file {d : ℕ} (model : String) (fs : FPath → EmbArray d)
    (p : FPath) : EmbArray d :=
  fs (get_cache_embedding_path model p)

/-- The bounded-`max_count` loop of `_load_embeddings` (lines 190–196):
append each file's embedding, add its frame count to the running total, then
break once the total strictly exceeds `max_count`. -/
def loadLoopP {d : ℕ} (model : String) (fs : FPath → EmbArray d) (mc : ℤ) :
    List FPath → ℤ → List (EmbArray d)
  | [], _ => []
  | f :: rest, total =>
      let e := read_embedding_file model fs f
      e :: (if mc < total + e.length then []
            else loadLoopP model fs mc rest (total + e.length))

/-- `_load_embeddings` of `fad.py` (list of per-file arrays, before the
optional concatenation): with `max_count = -1` every file is read; otherwise
the bounded loop runs.  Concatenation (`concat=True`) is `List.flatten` at
the call sites. -/
def _load_embeddings {d : ℕ} (model : String) (fs : FPath → EmbArray d)
    (files : List FPath) (mc : ℤ) : List (EmbArray d) :=
  if mc = -1 then files.map (read_embedding_file model fs)
  else loadLoopP model fs mc files 0

/-! ### FAD-inf (`fadinf`) -/

/-- The eval-embedding loading step of `fadinf` (lines 250–255): if every
eval file has suffix `.npy` the arrays are `np.load`ed directly from those
paths and concatenated; otherwise they are read through
`_load_embeddings(eval_files, concat=True)`, i.e. through the embedding
cache-path mapping. -/
def fadinfEmbeds {d : ℕ} (model : String) (fs : FPath → EmbArray d)
    (files : List FPath) : EmbArray d :=
  if files.all (fun f => f.ext == ".npy") then (files.map fs).flatten
  else (_load_embeddings model fs files (-1)).flatten

/-- `np.linspace a b steps` over ℚ (endpoint included). -/
def linspace (a b : ℚ) (steps : ℕ) : List ℚ :=
  if steps = 0 then []
  else if steps = 1 then [a]
  else (List.range steps).map (fun i : ℕ => a + (b - a) * (i : ℚ) / ((steps : ℚ) - 1))

/-- Python `int()` of a rational: truncation toward zero. -/
def pyint (q : ℚ) : ℤ := if 0 ≤ q then ⌊q⌋ else -⌊-q⌋

/-- The sample sizes of `fadinf` (line 261):
`[int(n) for n in np.linspace(min_n, max_n, steps)]` with
`max_n = len(embeds)`. -/
def fadinfNs {d : ℕ} (embeds : EmbArray d) (steps min_n : ℕ) : List ℤ :=
  (linspace (min_n : ℚ) (embeds.length : ℚ) steps).map pyint

/-- One bootstrap draw of `fadinf` (lines 266–267): the random choice of `n`
row indices (with replacement) is the oracle `rand` (step index, size);
`embeds[indices]` is index lookup into the row list. -/
def fadinfSample {d : ℕ} (rand : ℕ → ℕ → List ℕ) (embeds : EmbArray d)
    (k : ℕ) (n : ℤ) : EmbArray d :=
  (rand k n.toNat).map (fun i => embeds.getD i (fun _ => 0))

/-- Left-to-right effectful map over a list in `Except` (the Python loop
stops at the first raised exception). -/
def exceptMap {α β ε : Type} (f : α → Except ε β) : List α → Except ε (List β)
  | [] => .ok []
  | a :: l =>
      match f a with
      | .error e => .error e
      | .ok b =>
          match exceptMap f l with
          | .error e => .error e
          | .ok bs => .ok (b :: bs)

/-- The result loop of `fadinf` (lines 263–273): for the `k`-th sample size
`n`, sample `n` rows, compute their `calc_embd_statistics`, compute the
Frechet distance to the background statistics, and record `(n, score)`. -/
def fadinfResults {d : ℕ} (S : SqrtmOracle d) (rand : ℕ → ℕ → List ℕ)
    (mu_base : Vec d) (cov_base : Mat d) (embeds : EmbArray d)
    (steps min_n : ℕ) : Except FadError (List (ℤ × ℚ)) :=
  exceptMap
    (fun kn =>
      let st := calc_embd_statistics (fadinfSample rand embeds kn.1 kn.2)
      match calc_frechet_distance S mu_base cov_base st.1 st.2 fadEps with
      | .error e => .error e
      | .ok s => .ok (kn.2, s))
    (fadinfNs embeds steps min_n).enum

/-- Degree-1 `np.polyfit` (ordinary least squares line fit), returned as
`(slope, intercept)` — the coefficient order the code destructures.  This is
the closed-form normal-equations solution of the least-squares problem. -/
def polyfit1 (xs ys : List ℚ) : ℚ × ℚ :=
  let k : ℚ := xs.length
  let sx := xs.sum
  let sy := ys.sum
  let sxy := ((xs.zip ys).map (fun p => p.1 * p.2)).sum
  let sxx := (xs.map (fun x => x * x)).sum
  let slope := (k * sxy - sx * sy) / (k * sxx - sx * sx)
  (slope, (sy - slope * sx) / k)

/-- `fadinf` from `fad.py`.  The background statistics `(mu_base, cov_base)`
stand for the result of `load_stats(baseline_dir)`.  After the bootstrap
loop: `xs = 1 / np.array(ns)`, a degree-1 fit of the scores against `xs`,
and the pair `(intercept, slope)` is returned. -/
def fadinf {d : ℕ} (S : SqrtmOracle d) (rand : ℕ → ℕ → List ℕ)
    (model : String) (fs : FPath → EmbArray d) (mu_base : Vec d)
    (cov_base : Mat d) (eval_files : List FPath) (steps min_n : ℕ) :
    Except FadError (ℚ × ℚ) :=
  let embeds := fadinfEmbeds model fs eval_files
  match fadinfResults S rand mu_base cov_base embeds steps min_n with
  | .error e => .error e
  | .ok rs =>
      let ns := fadinfNs embeds steps min_n
      let xs := ns.map (fun n : ℤ => 1 / (n : ℚ))
      let p := polyfit1 xs (rs.map Prod.snd)
      .ok (p.2, p.1)

/-! ### Individual score ranking (`score_individual`) -/

/-- The report path of `score_individual` (line 289):
`Path('data') / 'fad-individual' / model / csv_name`, as path components. -/
def csvPath (model name : String) : List String :=
  ["data", "fad-individual", model, name]

/-- `_find_z_helper` of `score_individual`: read the cached embedding of one
eval file, compute its statistics, compute its Frechet distance against the
background statistics.  Any exception in these steps is caught and logged,
and the helper returns `None`.  `readEmb` is the per-file cache read, which
may itself fail (`none`). -/
def _find_z_helper {d : ℕ} (S : SqrtmOracle d) (mu : Vec d) (cov : Mat d)
    (readEmb : String → Option (EmbArray d)) (f : String) : Option ℚ :=
  match readEmb f with
  | none => none
  | some embd =>
      let st := calc_embd_statistics embd
      match calc_frechet_distance S mu cov st.1 st.2 fadEps with
      | .error _ => none
      | .ok s => some s

/-- `score_individual` from `fad.py`.  Returns the pair (returned value,
written report): if the csv already exists the function returns early
(`None`) and writes nothing; otherwise it scores every eval file, drops the
`None` scores, sorts ascending by `|score|` (Python's stable sort, modelled
by `insertionSort`), writes the report, and returns the csv path.  The
textual csv rendering (`str` plus comma escaping) is not modelled; the
report is kept as the sorted `(path, score)` list. -/
def score_individual {d : ℕ} (S : SqrtmOracle d) (model name : String)
    (csvExists : Bool) (mu : Vec d) (cov : Mat d)
    (readEmb : String → Option (EmbArray d)) (files : List String) :
    Option (List String) × Option (List (String × ℚ)) :=
  if csvExists then (none, none)
  else
    let scores := files.map (_find_z_helper S mu cov readEmb)
    let pairs := (files.zip scores).filterMap
      (fun p => p.2.map (fun s => (p.1, s)))
    (some (csvPath model name),
     some (pairs.insertionSort (fun x y => |x.2| ≤ |y.2|)))

/-! ### Spec-side definitions for comparison, and concrete test inputs

`realSqrtm` and `transposeR` state the contract of the principal matrix
square root used in the claims about `calc_frechet_distance`: on a product
of symmetric matrices the principal square root of `(M·M)` is `M` itself
(for `M` positive semidefinite), and the principal square root commutes
with transposition, which swaps the two factors of a product of symmetric
matrices.  The `w…` definitions are concrete inputs used to instantiate
the theorems.
-/

/-- A finite, real-dtype sqrtm result holding exactly the matrix `M`. -/
def realSqrtm {d : ℕ} (M : Mat d) : SqrtmResult d :=
  ⟨M, fun _ _ => 0, false, true⟩

/-- Entry-wise transposition of a sqrtm result (dtype and finiteness are
unchanged by transposition). -/
def transposeR {d : ℕ} (r : SqrtmResult d) : SqrtmResult d :=
  ⟨fun i j => r.re j i, fun i j => r.im j i, r.isComplexObj, r.allFinite⟩

/-- The spec's example embedding array `[[1,2],[3,4],[5,6]]`. -/
def testRows : EmbArray 2 :=
  [fun i => if i = 0 then 1 else 2,
   fun i => if i = 0 then 3 else 4,
   fun i => if i = 0 then 5 else 6]

/-- The spec's expected mean `[3,4]` for `testRows`. -/
def testMean : Vec 2 := fun i => if i = 0 then 3 else 4

/-- The spec's expected sample covariance `[[4,4],[4,4]]` for `testRows`. -/
def testCov : Mat 2 := fun _ _ => 4

/-- Concrete one-dimensional rows/matrices for witnesses. -/
def wRow (q : ℚ) : Vec 1 := fun _ => q

/-- Constant 1×1 matrix. -/
def wMat (q : ℚ) : Mat 1 := fun _ _ => q

/-- Oracle returning a finite real result `wMat q` on every input. -/
def wsqReal (q : ℚ) : SqrtmOracle 1 := fun _ => ⟨wMat q, fun _ _ => 0, false, true⟩

/-- Oracle whose results contain non-finite values. -/
def wsqNonfinite : SqrtmOracle 1 := fun _ => ⟨wMat 0, fun _ _ => 0, false, false⟩

/-- Oracle returning a complex result with imaginary diagonal 1 (> 1e-3). -/
def wsqComplexBig : SqrtmOracle 1 := fun _ => ⟨wMat 0, wMat 1, true, true⟩

/-- Oracle returning a complex result with zero imaginary part. -/
def wsqComplexSmall : SqrtmOracle 1 := fun _ => ⟨wMat 5, fun _ _ => 0, true, true⟩

/-- A `.npy` eval file path. -/
def wPnpy : FPath := ⟨[], "a", ".npy"⟩

/-- A non-`.npy` eval file path. -/
def wPwav : FPath := ⟨[], "b", ".wav"⟩

/-- Filesystem oracle: every path holds one zero frame. -/
def wFs1 : FPath → EmbArray 1 := fun _ => [wRow 0]

/-- Index oracle drawing index 0, `n` times (sampling with replacement from
a single-row eval set). -/
def wRand : ℕ → ℕ → List ℕ := fun _ n => List.replicate n 0

/-- Cache-read oracle for the ranking witnesses: file "a" has a cached
embedding, file "b" raises on read. -/
def wReadEmb : String → Option (EmbArray 1) :=
  fun f => if f = "a" then some [wRow 0] else none

/-! ### Theorems -/

theorem testRows_stats :
    calc_embd_statistics testRows = (testMean, testCov) := by
  refine Prod.ext ?_ ?_
  · funext i
    fin_cases i <;> norm_num [calc_embd_statistics, testRows, testMean]
  · funext a b
    fin_cases a <;> fin_cases b <;>
      norm_num [calc_embd_statistics, testRows, testCov]

/-- C2: for a nonempty embedding array the mean is the per-column average
of the rows and the covariance carries the `n − 1` normalisation: the mean
times `n` recovers the column sums, and the covariance times `n − 1`
recovers the centred cross sums.  The spec's concrete instance
`[[1,2],[3,4],[5,6]] ↦ ([3,4], [[4,4],[4,4]])` holds. -/
theorem claim_C2 :
    (∀ (d : ℕ) (embd : EmbArray d) (j : Fin d), 1 ≤ embd.length →
        (calc_embd_statistics embd).1 j * (embd.length : ℚ)
          = (embd.map (fun r => r j)).sum)
    ∧ (∀ (d : ℕ) (embd : EmbArray d) (a b : Fin d), 1 ≤ embd.length →
        (calc_embd_statistics embd).2 a b * ((embd.length : ℚ) - 1)
          = (embd.map (fun r =>
              (r a - (calc_embd_statistics embd).1 a)
                * (r b - (calc_embd_statistics embd).1 b))).sum)
    ∧ calc_embd_statistics testRows = (testMean, testCov) := by
  refine ⟨?_, ?_, testRows_stats⟩
  · intro d embd j h
    have hn : ((embd.length : ℚ)) ≠ 0 := by
      have : (0 : ℚ) < (embd.length : ℚ) := by exact_mod_cast h
      exact this.ne'
    simp only [calc_embd_statistics]
    exact div_mul_cancel₀ _ hn
  · intro d embd a b h
    rcases Nat.lt_or_ge embd.length 2 with h2 | h2
    · have h1 : embd.length = 1 := le_antisymm (by omega) h
      obtain ⟨r, rfl⟩ := List.length_eq_one.mp h1
      simp [calc_embd_statistics]
    · have hn : ((embd.length : ℚ)) - 1 ≠ 0 := by
        have : (2 : ℚ) ≤ (embd.length : ℚ) := by exact_mod_cast h2
        linarith
      simp only [calc_embd_statistics]
      exact div_mul_cancel₀ _ hn

/-- Witness for C2 at the spec's concrete array. -/
theorem claim_C2_witness :
    (calc_embd_statistics testRows).1 0 * ((testRows.length : ℚ))
        = (testRows.map (fun r => r 0)).sum
    ∧ (calc_embd_statistics testRows).2 0 1 * ((testRows.length : ℚ) - 1)
        = (testRows.map (fun r =>
            (r 0 - (calc_embd_statistics testRows).1 0)
              * (r 1 - (calc_embd_statistics testRows).1 1))).sum :=
  ⟨claim_C2.1 2 testRows 0 (by norm_num [testRows]),
   claim_C2.2.1 2 testRows 0 1 (by norm_num [testRows])⟩

/-- Distributing a centred cross sum: for any list of rows and any centre
values `ma`, `mb`, `Σ (r a − ma)(r b − mb)` expands to
`Σ r a·r b − mb·Σ r a − ma·Σ r b + n·(ma·mb)`. -/
theorem sum_map_sub_mul {d : ℕ} (l : List (Vec d)) (a b : Fin d) (ma mb : ℚ) :
    (l.map (fun r => (r a - ma) * (r b - mb))).sum
      = (l.map (fun r => r a * r b)).sum
        - mb * (l.map (fun r => r a)).sum
        - ma * (l.map (fun r => r b)).sum
        + (l.length : ℚ) * (ma * mb) := by
  induction l with
  | nil => simp
  | cons r t ih =>
      simp only [List.map_cons, List.sum_cons, ih, List.length_cons]
      push_cast
      ring

/-- Summing a function over a flattened list of lists equals summing the
per-list sums. -/
theorem sum_map_flatten {α : Type} (files : List (List α)) (g : α → ℚ) :
    (files.flatten.map g).sum = (files.map (fun f => (f.map g).sum)).sum := by
  rw [List.map_flatten, List.sum_flatten, List.map_map]
  rfl

/-- C1: the streaming aggregation used by `load_stats` agrees exactly (over
ℚ) with the batch statistics of the concatenation, for every partition of
the rows into non-empty files. -/
theorem claim_C1 {d : ℕ} (files : List (EmbArray d)) (hne : files ≠ [])
    (hfe : ∀ f ∈ files, f ≠ []) :
    calculate_embd_statistics_online files
      = calc_embd_statistics files.flatten := by
  have hlen : ((files.map List.length).sum : ℕ) = files.flatten.length :=
    (List.length_flatten files).symm
  have hNpos : 0 < files.flatten.length := by
    obtain ⟨f, t, rfl⟩ := List.exists_cons_of_ne_nil hne
    have hf : f ≠ [] := hfe f (List.mem_cons_self f t)
    have : 0 < f.length := List.length_pos.mpr hf
    simp [List.flatten_cons]
    omega
  have hN : ((files.flatten.length : ℚ)) ≠ 0 := by
    exact_mod_cast hNpos.ne'
  -- the shared mean
  have hmu : ∀ j : Fin d,
      (calculate_embd_statistics_online files).1 j
        = (calc_embd_statistics files.flatten).1 j := by
    intro j
    simp only [calculate_embd_statistics_online, calc_embd_statistics]
    rw [hlen, sum_map_flatten]
  refine Prod.ext (funext hmu) ?_
  funext a b
  simp only [calculate_embd_statistics_online, calc_embd_statistics]
  rw [hlen, ← sum_map_flatten, ← sum_map_flatten, ← sum_map_flatten,
    sum_map_sub_mul files.flatten a b
      ((files.flatten.map (fun r => r a)).sum / (files.flatten.length : ℚ))
      ((files.flatten.map (fun r => r b)).sum / (files.flatten.length : ℚ))]
  set N : ℚ := (files.flatten.length : ℚ) with hNdef
  set Sa := (files.flatten.map (fun r => r a)).sum with hSa
  set Sb := (files.flatten.map (fun r => r b)).sum with hSb
  set Sab := (files.flatten.map (fun r => r a * r b)).sum with hSab
  congr 1
  field_simp
  ring

/-- Witness for C1: the rows of `testRows` split into a one-row file and a
two-row file aggregate to the batch statistics of the concatenation. -/
theorem claim_C1_witness :
    calculate_embd_statistics_online [testRows.take 1, testRows.drop 1]
      = calc_embd_statistics ([testRows.take 1, testRows.drop 1]).flatten :=
  claim_C1 [testRows.take 1, testRows.drop 1]
    (by simp)
    (by
      intro f hf
      rcases List.mem_cons.mp hf with rfl | hf
      · simp [testRows]
      · rcases List.mem_cons.mp hf with rfl | hf
        · simp [testRows]
        · cases hf)

/-- Transposing a sqrtm result commutes with the complex-residue handling:
the diagonal check is invariant under transposition and the kept real part
is the transpose of the original one. -/
theorem postCovmean_transposeR {d : ℕ} (r : SqrtmResult d) :
    postCovmean (transposeR r)
      = match postCovmean r with
        | .error e => .error e
        | .ok M => .ok (fun i j => M j i) := by
  by_cases hc : r.isComplexObj
  · by_cases hs : ∀ i, |r.im i i| ≤ atolImag
    · simp [postCovmean, transposeR, hc, hs]
    · simp [postCovmean, transposeR, hc, hs]
  · simp [postCovmean, transposeR, hc]

/-- C4: the Frechet distance is 0 on identical statistics and symmetric in
its two arguments.  The hypotheses state the contract of the principal
matrix square root collaborator: `sqrtm (M·M) = M` (finite, real) for a PSD
covariance, and `sqrtm` commutes with transposition when the two (symmetric)
covariance factors are swapped. -/
theorem claim_C4 :
    (∀ (d : ℕ) (S : SqrtmOracle d) (mu : Vec d) (cov : Mat d) (eps : ℚ),
      S (matMul cov cov) = realSqrtm cov →
      calc_frechet_distance S mu cov mu cov eps = .ok 0)
    ∧ (∀ (d : ℕ) (S : SqrtmOracle d) (mu1 : Vec d) (cov1 : Mat d)
        (mu2 : Vec d) (cov2 : Mat d) (eps : ℚ),
      S (matMul cov2 cov1) = transposeR (S (matMul cov1 cov2)) →
      S (matMul (addEps cov2 eps) (addEps cov1 eps))
        = transposeR (S (matMul (addEps cov1 eps) (addEps cov2 eps))) →
      calc_frechet_distance S mu2 cov2 mu1 cov1 eps
        = calc_frechet_distance S mu1 cov1 mu2 cov2 eps) := by
  constructor
  · intro d S mu cov eps h
    have hres : covmeanResolved S cov cov eps = realSqrtm cov := by
      simp [covmeanResolved, h, realSqrtm]
    simp only [calc_frechet_distance, hres]
    have hpost : postCovmean (realSqrtm cov) = .ok cov := by
      simp [postCovmean, realSqrtm]
    rw [hpost]
    simp only [vecDot, sub_self, mul_zero, zero_mul, Finset.sum_const_zero]
    norm_num
    ring
  · intro d S mu1 cov1 mu2 cov2 eps h1 h2
    have hres : covmeanResolved S cov2 cov1 eps
        = transposeR (covmeanResolved S cov1 cov2 eps) := by
      by_cases hf : (S (matMul cov1 cov2)).allFinite
      · have hf2 : (S (matMul cov2 cov1)).allFinite := by
          rw [h1]; exact hf
        simp [covmeanResolved, transposeR, hf, hf2, h1]
      · have hf2 : ¬(S (matMul cov2 cov1)).allFinite := by
          rw [h1]; exact hf
        simp [covmeanResolved, transposeR, hf, hf2, h1, h2]
    simp only [calc_frechet_distance, hres, postCovmean_transposeR]
    cases hp : postCovmean (covmeanResolved S cov1 cov2 eps) with
    | error e => rfl
    | ok M =>
        have hdiff : vecDot (fun j => mu2 j - mu1 j) (fun j => mu2 j - mu1 j)
            = vecDot (fun j => mu1 j - mu2 j) (fun j => mu1 j - mu2 j) := by
          unfold vecDot
          exact Finset.sum_congr rfl (fun j _ => by ring)
        have htr : matTrace (fun i j => M j i) = matTrace M := rfl
        simp only [hdiff, htr]
        congr 1
        ring

/-- Witness for C4: reflexivity at `mu = [0]`, `cov = [[4]]` with the
principal square root `sqrtm [[16]] = [[4]]`, and symmetry at two concrete
one-dimensional statistics under a constant (hence transpose-invariant)
sqrtm oracle. -/
theorem claim_C4_witness :
    calc_frechet_distance (wsqReal 4) (wRow 0) (wMat 4) (wRow 0) (wMat 4)
        fadEps = .ok 0
    ∧ calc_frechet_distance (wsqReal 2) (wRow 3) (wMat 2) (wRow 1) (wMat 5)
        fadEps
      = calc_frechet_distance (wsqReal 2) (wRow 1) (wMat 5) (wRow 3) (wMat 2)
        fadEps :=
  ⟨claim_C4.1 1 (wsqReal 4) (wRow 0) (wMat 4) fadEps rfl,
   claim_C4.2 1 (wsqReal 2) (wRow 1) (wMat 5) (wRow 3) (wMat 2) fadEps
     rfl rfl⟩

/-- C5: the error-handling path of `calc_frechet_distance`.  (1) If the
first square root has non-finite entries, the square root used is the one of
`(cov1 + eps·I)·(cov2 + eps·I)`.  (2) After this, if the result is a complex
object and some diagonal imaginary part exceeds 1e-3 in magnitude, the
computation fails with the numerical-instability error.  (3) Otherwise the
imaginary part is discarded and the real part enters the returned value. -/
theorem claim_C5 :
    (∀ (d : ℕ) (S : SqrtmOracle d) (cov1 cov2 : Mat d) (eps : ℚ),
      (S (matMul cov1 cov2)).allFinite = false →
      covmeanResolved S cov1 cov2 eps
        = S (matMul (addEps cov1 eps) (addEps cov2 eps)))
    ∧ (∀ (d : ℕ) (S : SqrtmOracle d) (mu1 : Vec d) (cov1 : Mat d)
        (mu2 : Vec d) (cov2 : Mat d) (eps : ℚ),
      (covmeanResolved S cov1 cov2 eps).isComplexObj = true →
      (∃ i, atolImag < |(covmeanResolved S cov1 cov2 eps).im i i|) →
      calc_frechet_distance S mu1 cov1 mu2 cov2 eps
        = .error .numericalInstability)
    ∧ (∀ (d : ℕ) (S : SqrtmOracle d) (mu1 : Vec d) (cov1 : Mat d)
        (mu2 : Vec d) (cov2 : Mat d) (eps : ℚ),
      (covmeanResolved S cov1 cov2 eps).isComplexObj = true →
      (∀ i, |(covmeanResolved S cov1 cov2 eps).im i i| ≤ atolImag) →
      calc_frechet_distance S mu1 cov1 mu2 cov2 eps
        = .ok (vecDot (fun j => mu1 j - mu2 j) (fun j => mu1 j - mu2 j)
              + matTrace cov1 + matTrace cov2
              - 2 * matTrace (covmeanResolved S cov1 cov2 eps).re)) := by
  refine ⟨?_, ?_, ?_⟩
  · intro d S cov1 cov2 eps h
    simp [covmeanResolved, h]
  · intro d S mu1 cov1 mu2 cov2 eps hc hbig
    have hno : ¬ ∀ i, |(covmeanResolved S cov1 cov2 eps).im i i| ≤ atolImag := by
      obtain ⟨i, hi⟩ := hbig
      intro hall
      exact absurd (hall i) (not_le.mpr hi)
    simp [calc_frechet_distance, postCovmean, hc, hno]
  · intro d S mu1 cov1 mu2 cov2 eps hc hsmall
    simp [calc_frechet_distance, postCovmean, hc, hsmall]

/-- Witness for C5: the retry at an oracle producing non-finite entries, the
failure at a complex result with imaginary diagonal 1, and the
real-part result at a complex result with zero imaginary part. -/
theorem claim_C5_witness :
    covmeanResolved wsqNonfinite (wMat 1) (wMat 1) fadEps
        = wsqNonfinite (matMul (addEps (wMat 1) fadEps) (addEps (wMat 1) fadEps))
    ∧ calc_frechet_distance wsqComplexBig (wRow 0) (wMat 1) (wRow 0) (wMat 1)
        fadEps = .error .numericalInstability
    ∧ calc_frechet_distance wsqComplexSmall (wRow 0) (wMat 1) (wRow 0) (wMat 1)
        fadEps
      = .ok (vecDot (fun j => wRow 0 j - wRow 0 j) (fun j => wRow 0 j - wRow 0 j)
            + matTrace (wMat 1) + matTrace (wMat 1)
            - 2 * matTrace (covmeanResolved wsqComplexSmall (wMat 1) (wMat 1)
                fadEps).re) :=
  ⟨claim_C5.1 1 wsqNonfinite (wMat 1) (wMat 1) fadEps rfl,
   claim_C5.2.1 1 wsqComplexBig (wRow 0) (wMat 1) (wRow 0) (wMat 1) fadEps rfl
     ⟨0, by norm_num [covmeanResolved, wsqComplexBig, wMat, atolImag]⟩,
   claim_C5.2.2 1 wsqComplexSmall (wRow 0) (wMat 1) (wRow 0) (wMat 1) fadEps rfl
     (by intro i; norm_num [covmeanResolved, wsqComplexSmall, atolImag])⟩

/-- The bounded loading loop returns a prefix of the files, each included
whole. -/
theorem loadLoopP_take {d : ℕ} (model : String) (fs : FPath → EmbArray d)
    (mc : ℤ) :
    ∀ (files : List FPath) (total : ℤ), ∃ k,
      loadLoopP model fs mc files total
        = (files.take k).map (read_embedding_file model fs) := by
  intro files
  induction files with
  | nil => exact fun _ => ⟨0, rfl⟩
  | cons f rest ih =>
      intro total
      by_cases h : mc < total + (read_embedding_file model fs f).length
      · exact ⟨1, by simp [loadLoopP, h]⟩
      · obtain ⟨k, hk⟩ := ih (total + (read_embedding_file model fs f).length)
        exact ⟨k + 1, by simp [loadLoopP, h, hk]⟩

/-- The bounded loading loop either takes every file or stops only after the
running frame total strictly exceeds the bound. -/
theorem loadLoopP_total {d : ℕ} (model : String) (fs : FPath → EmbArray d)
    (mc : ℤ) :
    ∀ (files : List FPath) (total : ℤ),
      loadLoopP model fs mc files total
          = files.map (read_embedding_file model fs)
      ∨ mc < total
          + (((loadLoopP model fs mc files total).map List.length).sum : ℤ) := by
  intro files
  induction files with
  | nil => exact fun _ => Or.inl rfl
  | cons f rest ih =>
      intro total
      by_cases h : mc < total + (read_embedding_file model fs f).length
      · right
        simp only [loadLoopP, if_pos h]
        simpa using h
      · rcases ih (total + (read_embedding_file model fs f).length) with hall | hlt
        · left
          simp [loadLoopP, h, hall]
        · right
          simp only [loadLoopP, if_neg h, List.map_cons, List.sum_cons]
          push_cast
          push_cast at hlt
          omega

/-- C6: with a bounded `max_count`, `_load_embeddings` includes files whole,
in order (the result is a prefix of the per-file arrays, with the file that
crosses the threshold included in full), and the total number of returned
frames is at least `max_count` whenever the total number of available frames
is. -/
theorem claim_C6 {d : ℕ} (model : String) (fs : FPath → EmbArray d)
    (files : List FPath) (mc : ℤ) (h : mc ≠ -1) :
    (∃ k, _load_embeddings model fs files mc
        = (files.take k).map (read_embedding_file model fs))
    ∧ (mc ≤ (((files.map (read_embedding_file model fs)).flatten.length : ℕ) : ℤ) →
        mc ≤ (((_load_embeddings model fs files mc).flatten.length : ℕ) : ℤ)) := by
  constructor
  · simp only [_load_embeddings, if_neg h]
    exact loadLoopP_take model fs mc files 0
  · intro havail
    simp only [_load_embeddings, if_neg h] at *
    rcases loadLoopP_total model fs mc files 0 with hall | hlt
    · rw [hall]
      exact havail
    · rw [List.length_flatten]
      omega

/-- C9: with a bounded `max_count` (any value other than the sentinel `-1`,
including `0` or values smaller than the first file's frame count), the
first file's embedding array is always part of the result, because the loop
appends before comparing the running total against the limit. -/
theorem claim_C9 {d : ℕ} (model : String) (fs : FPath → EmbArray d)
    (f : FPath) (rest : List FPath) (mc : ℤ) (h : mc ≠ -1) :
    ∃ t, _load_embeddings model fs (f :: rest) mc
        = read_embedding_file model fs f :: t := by
  refine ⟨if mc < 0 + (read_embedding_file model fs f).length then []
    else loadLoopP model fs mc rest (0 + (read_embedding_file model fs f).length), ?_⟩
  simp only [_load_embeddings, if_neg h, loadLoopP]

/-- Witness for C6: two one-frame files under `max_count = 0`; the available
total (2 frames) exceeds the bound and so does the returned total. -/
theorem claim_C6_witness :
    (∃ k, _load_embeddings "m" wFs1 [wPnpy, wPwav] 0
        = ([wPnpy, wPwav].take k).map (read_embedding_file "m" wFs1))
    ∧ (0 : ℤ) ≤ (((_load_embeddings "m" wFs1 [wPnpy, wPwav] 0).flatten.length : ℕ) : ℤ) :=
  ⟨(claim_C6 "m" wFs1 [wPnpy, wPwav] 0 (by decide)).1,
   (claim_C6 "m" wFs1 [wPnpy, wPwav] 0 (by decide)).2 (by positivity)⟩

/-- Witness for C9: `max_count = 0` is smaller than the first file's frame
count (1), yet the first file's array is returned in full. -/
theorem claim_C9_witness :
    ∃ t, _load_embeddings "m" wFs1 [wPnpy, wPwav] 0
        = read_embedding_file "m" wFs1 wPnpy :: t :=
  claim_C9 "m" wFs1 wPnpy [wPwav] 0 (by decide)

/-- C10: when every eval path ends in `.npy`, `fadinf` loads the arrays
directly from those paths and concatenates them; when at least one path has
a different suffix, all embeddings are read through the cache-path mapping
`<parent>/embeddings/<model>/<stem>.npy`. -/
theorem claim_C10 {d : ℕ} (model : String) (fs : FPath → EmbArray d)
    (files : List FPath) :
    ((∀ f ∈ files, f.ext = ".npy") →
      fadinfEmbeds model fs files = (files.map fs).flatten)
    ∧ ((∃ f ∈ files, f.ext ≠ ".npy") →
      fadinfEmbeds model fs files
        = (files.map (fun f => fs (get_cache_embedding_path model f))).flatten) := by
  constructor
  · intro h
    have hall : files.all (fun f => f.ext == ".npy") = true := by
      rw [List.all_eq_true]
      intro f hf
      exact beq_iff_eq.mpr (h f hf)
    simp [fadinfEmbeds, hall]
  · intro h
    obtain ⟨f, hf, hne⟩ := h
    have hall : files.all (fun f => f.ext == ".npy") = false := by
      rw [List.all_eq_false]
      exact ⟨f, hf, by simpa using hne⟩
    simp only [fadinfEmbeds, hall, Bool.false_eq_true, if_false,
      _load_embeddings, if_pos rfl]
    rfl

/-- Witness for C10: a single `.npy` path is loaded directly; a single
`.wav` path is read through the cache mapping. -/
theorem claim_C10_witness :
    fadinfEmbeds "m" wFs1 [wPnpy] = ([wPnpy].map wFs1).flatten
    ∧ fadinfEmbeds "m" wFs1 [wPwav]
      = ([wPwav].map (fun f => wFs1 (get_cache_embedding_path "m" f))).flatten :=
  ⟨(claim_C10 "m" wFs1 [wPnpy]).1 (by decide),
   (claim_C10 "m" wFs1 [wPwav]).2 ⟨wPwav, by decide, by decide⟩⟩

/-- C7: `score_individual` skips entirely and returns null when the report
file exists; otherwise it returns the report path, which is
`fad-individual/<model>/<reportName>` relative to the `data` directory. -/
theorem claim_C7 {d : ℕ} (S : SqrtmOracle d) (model name : String)
    (mu : Vec d) (cov : Mat d) (readEmb : String → Option (EmbArray d))
    (files : List String) :
    score_individual S model name true mu cov readEmb files = (none, none)
    ∧ (score_individual S model name false mu cov readEmb files).1
        = some (csvPath model name)
    ∧ csvPath model name = "data" :: ["fad-individual", model, name] := by
  refine ⟨?_, ?_, rfl⟩ <;> simp [score_individual]

/-- The zip-with-scores construction of `score_individual` is a filterMap
over the eval files keeping exactly the successfully scored ones. -/
theorem score_pairs_eq {d : ℕ} (S : SqrtmOracle d) (mu : Vec d) (cov : Mat d)
    (readEmb : String → Option (EmbArray d)) (files : List String) :
    (files.zip (files.map (_find_z_helper S mu cov readEmb))).filterMap
        (fun p => p.2.map (fun s => (p.1, s)))
      = files.filterMap
          (fun f => (_find_z_helper S mu cov readEmb f).map (fun s => (f, s))) := by
  have hz := List.zip_map' id (_find_z_helper S mu cov readEmb) files
  rw [List.map_id] at hz
  rw [hz, List.filterMap_map]
  rfl

/-- C8: a per-file error never aborts the batch — the report is still
produced; a file whose per-file computation succeeds appears in the report
with its score; a file whose per-file computation raises is excluded; and
every record of the report belongs to an eval file whose per-file
computation succeeded. -/
theorem claim_C8 {d : ℕ} (S : SqrtmOracle d) (model name : String)
    (mu : Vec d) (cov : Mat d) (readEmb : String → Option (EmbArray d))
    (files : List String) (g b : String) (sg : ℚ)
    (hg : g ∈ files)
    (hsome : _find_z_helper S mu cov readEmb g = some sg)
    (hb : _find_z_helper S mu cov readEmb b = none) :
    ∃ rep, (score_individual S model name false mu cov readEmb files).2
        = some rep
      ∧ (g, sg) ∈ rep
      ∧ (∀ s, (b, s) ∉ rep)
      ∧ (∀ f s, (f, s) ∈ rep →
          f ∈ files ∧ _find_z_helper S mu cov readEmb f = some s) := by
  refine ⟨(files.filterMap
      (fun f => (_find_z_helper S mu cov readEmb f).map
        (fun s => (f, s)))).insertionSort (fun x y => |x.2| ≤ |y.2|),
    ?_, ?_, ?_, ?_⟩
  · simp only [score_individual, if_neg (Bool.false_ne_true)]
    rw [score_pairs_eq]
  · rw [List.mem_insertionSort]
    exact List.mem_filterMap.mpr ⟨g, hg, by rw [hsome]; rfl⟩
  · intro s hmem
    rw [List.mem_insertionSort] at hmem
    obtain ⟨a, _, heq⟩ := List.mem_filterMap.mp hmem
    obtain ⟨x, hx, hfx⟩ := Option.map_eq_some'.mp heq
    have hab : a = b := congrArg Prod.fst hfx
    rw [hab] at hx
    rw [hb] at hx
    cases hx
  · intro f s hmem
    rw [List.mem_insertionSort] at hmem
    obtain ⟨a, ha, heq⟩ := List.mem_filterMap.mp hmem
    obtain ⟨x, hx, hfx⟩ := Option.map_eq_some'.mp heq
    have haf : a = f := congrArg Prod.fst hfx
    have hxs : x = s := congrArg Prod.snd hfx
    subst haf
    subst hxs
    exact ⟨ha, hx⟩

/-- Witness for C8: eval files `"a"` (readable, scores 0 against the zero
background) and `"b"` (cache read raises). -/
theorem claim_C8_witness :
    ∃ rep, (score_individual (wsqReal 0) "m" "r.csv" false (wRow 0) (wMat 0)
        wReadEmb ["a", "b"]).2 = some rep
      ∧ ("a", (0 : ℚ)) ∈ rep
      ∧ (∀ s, ("b", s) ∉ rep)
      ∧ (∀ f s, (f, s) ∈ rep →
          f ∈ ["a", "b"] ∧ _find_z_helper (wsqReal 0) (wRow 0) (wMat 0)
            wReadEmb f = some s) :=
  claim_C8 (wsqReal 0) "m" "r.csv" (wRow 0) (wMat 0) wReadEmb ["a", "b"]
    "a" "b" 0
    (by simp)
    (by norm_num [_find_z_helper, wReadEmb, calc_embd_statistics,
      calc_frechet_distance, covmeanResolved, postCovmean, wsqReal, wMat,
      wRow, vecDot, matTrace, Fin.sum_univ_one])
    (by simp [_find_z_helper, wReadEmb])

/-- `linspace` always yields exactly `steps` points. -/
theorem linspace_length (a b : ℚ) (s : ℕ) : (linspace a b s).length = s := by
  rcases Nat.eq_zero_or_pos s with h0 | hpos
  · simp [linspace, h0]
  · rcases Nat.lt_or_ge s 2 with h1 | h2
    · have hs1 : s = 1 := by omega
      simp [linspace, hs1]
    · have hns0 : s ≠ 0 := by omega
      have hns1 : s ≠ 1 := by omega
      simp [linspace, hns0, hns1]

/-- `fadinf` generates exactly `steps` sample sizes. -/
theorem fadinfNs_length {d : ℕ} (embeds : EmbArray d) (steps min_n : ℕ) :
    (fadinfNs embeds steps min_n).length = steps := by
  simp [fadinfNs, linspace_length]

/-- A successful `exceptMap` preserves the length of the list. -/
theorem exceptMap_ok_length {α β ε : Type} (f : α → Except ε β) :
    ∀ (l : List α) (r : List β), exceptMap f l = .ok r → r.length = l.length := by
  intro l
  induction l with
  | nil =>
      intro r h
      simp only [exceptMap, Except.ok.injEq] at h
      rw [← h]
      rfl
  | cons a t ih =>
      intro r h
      simp only [exceptMap] at h
      rcases hfa : f a with e | bb <;> rw [hfa] at h
      · simp at h
      · rcases hrec : exceptMap f t with e | bs <;> rw [hrec] at h
        · simp at h
        · simp only [Except.ok.injEq] at h
          rw [← h]
          simp [ih bs hrec]

/-- Pairing a list with a constant and summing the products is the constant
times the sum. -/
theorem zip_replicate_mul_sum (xs : List ℚ) (c : ℚ) :
    ((xs.zip (List.replicate xs.length c)).map (fun p => p.1 * p.2)).sum
      = c * xs.sum := by
  induction xs with
  | nil => simp
  | cons x t ih =>
      simp only [List.length_cons, List.replicate_succ, List.zip_cons_cons,
        List.map_cons, List.sum_cons, ih]
      ring

/-- The degree-1 least-squares fit of a constant response is slope 0 and
intercept the constant. -/
theorem polyfit1_const (xs : List ℚ) (c : ℚ) (hx : xs ≠ []) (ys : List ℚ)
    (hlen : ys.length = xs.length) (hc : ∀ y ∈ ys, y = c) :
    polyfit1 xs ys = (0, c) := by
  have hys : ys = List.replicate xs.length c :=
    List.eq_replicate_iff.mpr ⟨hlen, hc⟩
  subst hys
  have hk : ((xs.length : ℚ)) ≠ 0 := by
    have hpos : 0 < xs.length := List.length_pos.mpr hx
    exact_mod_cast hpos.ne'
  unfold polyfit1
  simp only [List.sum_replicate, nsmul_eq_mul, zip_replicate_mul_sum]
  have hnum : (xs.length : ℚ) * (c * xs.sum)
      - xs.sum * ((xs.length : ℚ) * c) = 0 := by ring
  rw [hnum, zero_div]
  rw [zero_mul, sub_zero, mul_comm]
  rw [mul_div_assoc, div_self hk, mul_one]

/-- C3: `fadinf` records one `(n, distance)` pair per generated sample size
(`steps` sizes linearly spaced from `min_n` to the eval row count, truncated
to integers; each `n` sampled by the index oracle), fits an ordinary
least-squares line of distance against `1/n` over the recorded pairs and
returns `(intercept, slope)`; consequently a constant distance `c` yields
exactly intercept `c` and slope `0`. -/
theorem claim_C3 {d : ℕ} (S : SqrtmOracle d) (rand : ℕ → ℕ → List ℕ)
    (model : String) (fs : FPath → EmbArray d) (mu_base : Vec d)
    (cov_base : Mat d) (eval_files : List FPath) (steps min_n : ℕ) (c : ℚ)
    (rs : List (ℤ × ℚ))
    (hres : fadinfResults S rand mu_base cov_base
        (fadinfEmbeds model fs eval_files) steps min_n = .ok rs) :
    (fadinf S rand model fs mu_base cov_base eval_files steps min_n
        = .ok ((polyfit1
            ((fadinfNs (fadinfEmbeds model fs eval_files) steps min_n).map
              (fun n : ℤ => 1 / (n : ℚ)))
            (rs.map Prod.snd)).2,
          (polyfit1
            ((fadinfNs (fadinfEmbeds model fs eval_files) steps min_n).map
              (fun n : ℤ => 1 / (n : ℚ)))
            (rs.map Prod.snd)).1))
    ∧ (1 ≤ steps → (∀ p ∈ rs, p.2 = c) →
        fadinf S rand model fs mu_base cov_base eval_files steps min_n
          = .ok (c, 0)) := by
  have h1 : fadinf S rand model fs mu_base cov_base eval_files steps min_n
      = .ok ((polyfit1
          ((fadinfNs (fadinfEmbeds model fs eval_files) steps min_n).map
            (fun n : ℤ => 1 / (n : ℚ)))
          (rs.map Prod.snd)).2,
        (polyfit1
          ((fadinfNs (fadinfEmbeds model fs eval_files) steps min_n).map
            (fun n : ℤ => 1 / (n : ℚ)))
          (rs.map Prod.snd)).1) := by
    simp only [fadinf, hres]
  refine ⟨h1, ?_⟩
  intro hsteps hconst
  rw [h1]
  have hxs_len : ((fadinfNs (fadinfEmbeds model fs eval_files) steps
      min_n).map (fun n : ℤ => 1 / (n : ℚ))).length = steps := by
    rw [List.length_map, fadinfNs_length]
  have hrs_len : rs.length = steps := by
    have henum := exceptMap_ok_length _ _ _ hres
    rw [List.enum_length, fadinfNs_length] at henum
    exact henum
  have hys : ∀ y ∈ rs.map Prod.snd, y = c := by
    intro y hy
    obtain ⟨p, hp, rfl⟩ := List.mem_map.mp hy
    exact hconst p hp
  have hx_ne : ((fadinfNs (fadinfEmbeds model fs eval_files) steps
      min_n).map (fun n : ℤ => 1 / (n : ℚ))) ≠ [] := by
    apply List.ne_nil_of_length_pos
    rw [hxs_len]
    omega
  have hfit := polyfit1_const _ c hx_ne (rs.map Prod.snd)
    (by rw [List.length_map, hrs_len, hxs_len]) hys
  rw [hfit]

/-- Witness for C3: a single-row zero eval set against zero background
statistics under the constant-zero sqrtm oracle — every bootstrap distance
is 0, and `fadinf` returns intercept 0 and slope 0. -/
theorem claim_C3_witness :
    fadinf (wsqReal 0) wRand "m" wFs1 (wRow 0) (wMat 0) [wPnpy] 1 1
      = .ok (0, 0) :=
  (claim_C3 (wsqReal 0) wRand "m" wFs1 (wRow 0) (wMat 0) [wPnpy] 1 1 0
      [(1, 0)]
      (by norm_num [fadinfResults, fadinfNs, fadinfEmbeds, linspace, pyint,
        fadinfSample, exceptMap, calc_embd_statistics, calc_frechet_distance,
        covmeanResolved, postCovmean, vecDot, matTrace, wsqReal, wMat, wRow,
        wFs1, wRand, wPnpy, fadEps, List.enum, List.enumFrom,
        Fin.sum_univ_one])).2
    (le_refl 1)
    (by
      intro p hp
      rw [List.mem_singleton] at hp
      subst hp
      rfl)
